import Mathlib

/-!
Verification of the order-book synchronization core of the 3D order-book
depth visualizer (src/src/app/page.tsx).

The embedding below translates the stateful hook `useOrderbookWebSocket`
into pure Lean functions.  Prices and quantities are modelled as rationals
(the source compares them by exact equality), version counters and
timestamps as natural numbers, arrays as lists.  The in-place array
mutations of the message handler (splice, indexed assignment, push + sort)
become the corresponding pure list operations; the push-then-sort step is
modelled by `List.insertionSort`, which agrees with any comparison sort by
price because the pushed price is not already present, so all keys are
distinct.  A separate heap-based model (`ArrayStore`) makes the array
aliasing of the handler observable for the snapshot-immutability claim.
-/

/-- One price level of the book (interface `OrderbookLevel`). -/
structure PriceLevel where
  price : ℚ
  quantity : ℚ
  timestamp : ℕ
  deriving DecidableEq

/-- The live book (interface `OrderbookData`). -/
structure OrderbookData where
  bids : List PriceLevel
  asks : List PriceLevel
  lastUpdateId : ℕ
  deriving DecidableEq

/-- A depth diff message as read by the handler: `data.U` is the first
version of the range, `data.u` the final version, `data.b` and `data.a`
the bid and ask (price, quantity) delta lists. -/
structure DiffMessage where
  U : ℕ
  u : ℕ
  b : List (ℚ × ℚ)
  a : List (ℚ × ℚ)
  deriving DecidableEq

/-- The price sequence of a side. -/
def prices (levels : List PriceLevel) : List ℚ :=
  levels.map fun l => l.price

/-- JavaScript `Array.prototype.findIndex`, returning `none` for `-1`. -/
def findIndex (p : PriceLevel → Bool) : List PriceLevel → Option ℕ
  | [] => none
  | l :: ls => if p l then some 0 else (findIndex p ls).map (· + 1)

/-- One delta applied to one side of the book: the body of the
`data.b?.forEach` / `data.a?.forEach` loops of `ws.onmessage`.  `le` is the
price order of the side (bids descending, asks ascending), matching the
comparator passed to `sort`. -/
def upsertBy (le : ℚ → ℚ → Prop) [DecidableRel le] (levels : List PriceLevel)
    (price quantity : ℚ) (timestamp : ℕ) : List PriceLevel :=
  match findIndex (fun l => decide (l.price = price)) levels with
  | some index =>
      if quantity = 0 then levels.eraseIdx index
      else levels.set index ⟨price, quantity, timestamp⟩
  | none =>
      if quantity = 0 then levels
      else List.insertionSort (fun x y => le x.price y.price)
        (levels ++ [⟨price, quantity, timestamp⟩])

/-- Bid-side upsert; the comparator `(a, b) => b.price - a.price` sorts
descending by price. -/
def bidsUpsert (levels : List PriceLevel) (price quantity : ℚ) (timestamp : ℕ) :
    List PriceLevel :=
  upsertBy (fun p q => q ≤ p) levels price quantity timestamp

/-- Ask-side upsert; the comparator `(a, b) => a.price - b.price` sorts
ascending by price. -/
def asksUpsert (levels : List PriceLevel) (price quantity : ℚ) (timestamp : ℕ) :
    List PriceLevel :=
  upsertBy (fun p q => p ≤ q) levels price quantity timestamp

/-- The mutation part of `ws.onmessage` once the message passed the staleness
check: apply all bid deltas, then all ask deltas, then set
`lastUpdateId = data.u`. -/
def applyDiff (book : OrderbookData) (m : DiffMessage) (timestamp : ℕ) :
    OrderbookData :=
  { bids := m.b.foldl (fun acc d => bidsUpsert acc d.1 d.2 timestamp) book.bids
    asks := m.a.foldl (fun acc d => asksUpsert acc d.1 d.2 timestamp) book.asks
    lastUpdateId := m.u }

/-- The full `ws.onmessage` handler on the book: the guard
`if (data.U <= orderbookRef.current.lastUpdateId) return;` followed by the
diff application. -/
def onmessage (book : OrderbookData) (m : DiffMessage) (timestamp : ℕ) :
    OrderbookData :=
  if m.U ≤ book.lastUpdateId then book else applyDiff book m timestamp

/-- Processing a sequence of timestamped messages in arrival order. -/
def bookRun (book : OrderbookData) (msgs : List (DiffMessage × ℕ)) :
    OrderbookData :=
  msgs.foldl (fun acc md => onmessage acc md.1 md.2) book

/-- One retained history entry (interface `HistoricalData`). -/
structure HistorySnapshot where
  timestamp : ℕ
  bids : List PriceLevel
  asks : List PriceLevel
  deriving DecidableEq

/-- JavaScript `slice(-n)`: the last `n` elements (the whole list when it is
shorter than `n`). -/
def sliceLast {α : Type} (n : ℕ) (l : List α) : List α :=
  l.drop (l.length - n)

/-- The snapshot pushed into the history: `slice(0, 20)` of each side. -/
def mkHistorySnapshot (book : OrderbookData) (timestamp : ℕ) : HistorySnapshot :=
  { timestamp := timestamp
    bids := book.bids.take 20
    asks := book.asks.take 20 }

/-- The `setHistoricalData` updater: append the new snapshot and keep the
last 60 entries (`[...prev, newSnapshot].slice(-60)`). -/
def historyAppend (prev : List HistorySnapshot) (s : HistorySnapshot) :
    List HistorySnapshot :=
  sliceLast 60 (prev ++ [s])

/-- Book plus retained history, the state mutated by the handler. -/
structure EngineState where
  book : OrderbookData
  history : List HistorySnapshot
  deriving DecidableEq

/-- `ws.onmessage` acting on book and history together: a dropped message
changes nothing; an applied message also appends a top-20 snapshot of the
updated book. -/
def onmessageStep (st : EngineState) (m : DiffMessage) (timestamp : ℕ) :
    EngineState :=
  if m.U ≤ st.book.lastUpdateId then st
  else
    let book := applyDiff st.book m timestamp
    { book := book
      history := historyAppend st.history (mkHistorySnapshot book timestamp) }

/-- The state seeded by a successful `initializeOrderbook`: book from the
snapshot, history initialized with one top-20 snapshot of it. -/
def initEngine (snapshot : OrderbookData) (timestamp : ℕ) : EngineState :=
  { book := snapshot
    history := [mkHistorySnapshot snapshot timestamp] }

/-- Running the handler over a list of timestamped messages. -/
def engineRun (st : EngineState) (msgs : List (DiffMessage × ℕ)) : EngineState :=
  msgs.foldl (fun acc md => onmessageStep acc md.1 md.2) st

/-- Strict ordering invariant of the book: bids strictly descending and asks
strictly ascending by price (which also forbids duplicate prices per side). -/
def BookInv (book : OrderbookData) : Prop :=
  (prices book.bids).Pairwise (fun p q => q < p) ∧
    (prices book.asks).Pairwise (fun p q => p < q)

instance (book : OrderbookData) : Decidable (BookInv book) := by
  unfold BookInv; infer_instance

/- ------------------------------------------------------------------ -/
/- Hook-level state: the pieces of `useOrderbookWebSocket` touched by the
   initialization, message and close handlers. -/

/-- The hook state: the book ref, the history, the `connected` flag and the
`error` message. -/
structure HookState where
  orderbook : OrderbookData
  historicalData : List HistorySnapshot
  connected : Bool
  error : Option String
  deriving DecidableEq

/-- The state at mount: empty book, version 0, no history, disconnected. -/
def initialHookState : HookState :=
  { orderbook := { bids := [], asks := [], lastUpdateId := 0 }
    historicalData := []
    connected := false
    error := none }

/-- `initializeOrderbook`: on a successful fetch, install the snapshot book
and seed the history; on any failure the `catch` block only records the
error string and leaves the book untouched.  The rejection is swallowed, so
the caller cannot distinguish the two outcomes. -/
def initializeOrderbook (st : HookState) (fetchResult : Except String OrderbookData)
    (timestamp : ℕ) : HookState :=
  match fetchResult with
  | .ok data =>
      { st with
        orderbook := data
        historicalData := [mkHistorySnapshot data timestamp] }
  | .error _ => { st with error := some "Failed to initialize orderbook" }

/-- `ws.onmessage` acting on the hook state. -/
def hookOnmessage (st : HookState) (m : DiffMessage) (timestamp : ℕ) : HookState :=
  if m.U ≤ st.orderbook.lastUpdateId then st
  else
    let book := applyDiff st.orderbook m timestamp
    { st with
      orderbook := book
      historicalData :=
        historyAppend st.historicalData (mkHistorySnapshot book timestamp) }

/-- The mount effect `initializeOrderbook().then(() => connectWebSocket())`
followed by message delivery: because the fetch rejection is caught inside
`initializeOrderbook`, the promise always resolves and the WebSocket is
connected regardless of the fetch outcome; arriving messages are then
processed by `ws.onmessage`. -/
def startup (fetchResult : Except String OrderbookData) (t0 : ℕ)
    (msgs : List (DiffMessage × ℕ)) : HookState :=
  let st1 := initializeOrderbook initialHookState fetchResult t0
  let st2 := { st1 with connected := true }
  msgs.foldl (fun acc md => hookOnmessage acc md.1 md.2) st2

/-- The calls the close handler can schedule. -/
inductive ScheduledCall
  | connectWebSocket
  | fetchSnapshot
  deriving DecidableEq

/-- `ws.onclose`: set `connected` to `false` and schedule
`setTimeout(() => connectWebSocket(), 3000)`.  Nothing else is touched and
nothing else is scheduled. -/
def onclose (st : HookState) : HookState × ℕ × ScheduledCall :=
  ({ st with connected := false }, 3000, ScheduledCall.connectWebSocket)

/- ------------------------------------------------------------------ -/
/- Heap model: the message handler mutates the bid and ask arrays in place
   (`splice`, indexed assignment, `push` + `sort`), while
   `{...orderbookRef.current}` only copies the references to them.  The
   store below makes that aliasing explicit: a book record holds array ids,
   the store maps ids to array contents. -/

/-- A store of arrays addressed by id. -/
def ArrayStore : Type := ℕ → List PriceLevel

/-- In-place overwrite of one array. -/
def storeWrite (h : ArrayStore) (i : ℕ) (l : List PriceLevel) : ArrayStore :=
  fun j => if j = i then l else h j

/-- A book record as the handler sees it: references to the two arrays plus
the scalar `lastUpdateId`. -/
structure RefBook where
  bidsId : ℕ
  asksId : ℕ
  lastUpdateId : ℕ
  deriving DecidableEq

/-- `ws.onmessage` on the heap model: the spread copy keeps the same array
ids, the delta loops mutate the arrays in the store, and the returned
`RefBook` is what `setOrderbook` hands to the consumer. -/
def storeOnmessage (h : ArrayStore) (cur : RefBook) (m : DiffMessage)
    (timestamp : ℕ) : ArrayStore × RefBook :=
  if m.U ≤ cur.lastUpdateId then (h, cur)
  else
    let h1 := storeWrite h cur.bidsId
      (m.b.foldl (fun acc d => bidsUpsert acc d.1 d.2 timestamp) (h cur.bidsId))
    let h2 := storeWrite h1 cur.asksId
      (m.a.foldl (fun acc d => asksUpsert acc d.1 d.2 timestamp) (h1 cur.asksId))
    (h2, { cur with lastUpdateId := m.u })

/-- Running the heap-model handler over a message sequence. -/
def storeRun (h : ArrayStore) (cur : RefBook) (msgs : List (DiffMessage × ℕ)) :
    ArrayStore × RefBook :=
  msgs.foldl (fun acc md => storeOnmessage acc.1 acc.2 md.1 md.2) (h, cur)

/- ------------------------------------------------------------------ -/
/- Theorems. -/

/-- Claim C6: from the snapshot book `{bids: [(100, 2)], asks: [(101, 3)],
version: 5}`, the diff `{firstVersion: 6, finalVersion: 6,
bidDeltas: [(100, 0)], askDeltas: []}` yields exactly the book
`{bids: [], asks: [(101, 3)], version: 6}`. -/
theorem C6_scenarioA :
    onmessage
      { bids := [⟨100, 2, 0⟩], asks := [⟨101, 3, 0⟩], lastUpdateId := 5 }
      { U := 6, u := 6, b := [(100, 0)], a := [] } 1 =
      { bids := [], asks := [⟨101, 3, 0⟩], lastUpdateId := 6 } := by
  decide

/-- Claim C4: a well-formed message whose final version does not exceed the
current book version is dropped by the handler guard: the book (sides and
version) is returned unchanged. -/
theorem C4_stale_noop (book : OrderbookData) (m : DiffMessage) (timestamp : ℕ)
    (h1 : m.U ≤ m.u) (h2 : m.u ≤ book.lastUpdateId) :
    onmessage book m timestamp = book := by
  unfold onmessage
  rw [if_pos (le_trans h1 h2)]

/-- Witness for C4: a message with range 4..5 against a book at version 5 is
a no-op. -/
theorem C4_stale_noop_witness :
    (4 : ℕ) ≤ 5 ∧ (5 : ℕ) ≤ 5 ∧
      onmessage { bids := [⟨100, 2, 0⟩], asks := [], lastUpdateId := 5 }
        { U := 4, u := 5, b := [(100, 0)], a := [] } 9 =
        { bids := [⟨100, 2, 0⟩], asks := [], lastUpdateId := 5 } :=
  ⟨by decide, by decide,
    C4_stale_noop { bids := [⟨100, 2, 0⟩], asks := [], lastUpdateId := 5 }
      { U := 4, u := 5, b := [(100, 0)], a := [] } 9 (by decide) (by decide)⟩

/-- The book component of the hook-level handler is the pure book handler. -/
theorem hookOnmessage_orderbook (st : HookState) (m : DiffMessage) (timestamp : ℕ) :
    (hookOnmessage st m timestamp).orderbook = onmessage st.orderbook m timestamp := by
  unfold hookOnmessage onmessage
  by_cases h : m.U ≤ st.orderbook.lastUpdateId
  · rw [if_pos h, if_pos h]
  · rw [if_neg h, if_neg h]

/-- Folding the hook-level handler tracks the pure book run. -/
theorem hookRun_orderbook (msgs : List (DiffMessage × ℕ)) (st : HookState) :
    (msgs.foldl (fun acc md => hookOnmessage acc md.1 md.2) st).orderbook =
      bookRun st.orderbook msgs := by
  induction msgs generalizing st with
  | nil => rfl
  | cons md msgs ih =>
      rw [List.foldl_cons, ih, hookOnmessage_orderbook]
      rfl

/-- Claim C8 counterexample: after a failed snapshot fetch the WebSocket is
still connected (the rejection is swallowed inside `initializeOrderbook`),
and an arriving diff IS applied to the never-initialized book: the book ends
nonempty at version 1 even though no snapshot load ever succeeded. -/
theorem C8_cex :
    (startup (Except.error "network error") 0
        [({ U := 1, u := 1, b := [(100, 1)], a := [] }, 0)]).orderbook =
      { bids := [⟨100, 1, 0⟩], asks := [], lastUpdateId := 1 } ∧
    (startup (Except.error "network error") 0
        [({ U := 1, u := 1, b := [(100, 1)], a := [] }, 0)]).error =
      some "Failed to initialize orderbook" := by
  constructor <;> decide

/-- Claim C8 (amended): a failed snapshot fetch is reported through the error
field and accepts no partial snapshot (the book is untouched by the failed
initialization, keeping empty sides and version 0); but the startup chain
still connects the stream, and every subsequent diff is processed by the
ordinary handler against the uninitialized book. -/
theorem C8_failure_reported (e : String) (t0 : ℕ) (msgs : List (DiffMessage × ℕ)) :
    (initializeOrderbook initialHookState (Except.error e) t0).orderbook =
        initialHookState.orderbook ∧
      (initializeOrderbook initialHookState (Except.error e) t0).error =
        some "Failed to initialize orderbook" ∧
      (startup (Except.error e) t0 msgs).orderbook =
        bookRun { bids := [], asks := [], lastUpdateId := 0 } msgs := by
  refine ⟨rfl, rfl, ?_⟩
  show (msgs.foldl (fun acc md => hookOnmessage acc md.1 md.2) _).orderbook = _
  rw [hookRun_orderbook]
  rfl

/-- Claim C1 counterexample: book at version 10, incoming diff with
firstVersion 12 (a gap: 12 > 10 + 1).  The admission rule of the claim
rejects it and demands a resync; the handler instead accepts and applies it,
advancing the book to version 12. -/
theorem C1_cex :
    ¬ ((12 : ℕ) ≤ 10 + 1) ∧
      onmessage { bids := [], asks := [], lastUpdateId := 10 }
          { U := 12, u := 12, b := [(100, 1)], a := [] } 0 =
        { bids := [⟨100, 1, 0⟩], asks := [], lastUpdateId := 12 } := by
  constructor <;> decide

/-- Claim C1 (amended): the handler accepts a DiffMessage iff
`firstVersion > book.version`; a message with `firstVersion <= book.version`
is silently discarded, and every accepted message — gap or not — is applied
and sets the version to its finalVersion.  There is no resync path. -/
theorem C1_admission (book : OrderbookData) (m : DiffMessage) (timestamp : ℕ) :
    (m.U ≤ book.lastUpdateId → onmessage book m timestamp = book) ∧
      (book.lastUpdateId < m.U →
        onmessage book m timestamp = applyDiff book m timestamp ∧
          (onmessage book m timestamp).lastUpdateId = m.u) := by
  constructor
  · intro h
    unfold onmessage
    rw [if_pos h]
  · intro h
    unfold onmessage
    rw [if_neg (not_le.mpr h)]
    exact ⟨rfl, rfl⟩

/-- Witness for C1 (amended): at version 10, a message with firstVersion 10
is dropped, and a gap message with firstVersion 12 is applied. -/
theorem C1_admission_witness :
    onmessage { bids := [], asks := [], lastUpdateId := 10 }
        { U := 10, u := 11, b := [], a := [] } 0 =
        { bids := [], asks := [], lastUpdateId := 10 } ∧
      onmessage { bids := [], asks := [], lastUpdateId := 10 }
          { U := 12, u := 12, b := [], a := [] } 0 =
        applyDiff { bids := [], asks := [], lastUpdateId := 10 }
          { U := 12, u := 12, b := [], a := [] } 0 :=
  ⟨(C1_admission { bids := [], asks := [], lastUpdateId := 10 }
      { U := 10, u := 11, b := [], a := [] } 0).1 (by decide),
    ((C1_admission { bids := [], asks := [], lastUpdateId := 10 }
      { U := 12, u := 12, b := [], a := [] } 0).2 (by decide)).1⟩

/-- Claim C2 counterexample: on disconnect the close handler neither discards
the live book (it stays exactly as it was, not reset to the empty book) nor
schedules a snapshot re-fetch — the only scheduled call is the WebSocket
reconnect, after the fixed 3000 ms delay. -/
theorem C2_cex :
    (onclose ⟨⟨[⟨100, 1, 0⟩], [], 5⟩, [], true, none⟩).1.orderbook ≠
      { bids := [], asks := [], lastUpdateId := 0 } ∧
    (onclose ⟨⟨[⟨100, 1, 0⟩], [], 5⟩, [], true, none⟩).2.2 ≠
      ScheduledCall.fetchSnapshot ∧
    (onclose ⟨⟨[⟨100, 1, 0⟩], [], 5⟩, [], true, none⟩).2.1 = 3000 := by
  refine ⟨by decide, by decide, by decide⟩

/-- Claim C2 (amended): on disconnect the handler keeps the book, history and
error untouched, marks the connection down, and unconditionally schedules
only a WebSocket reconnect after a fixed 3000 ms delay; the delay and the
scheduled call are independent of the state, so the retry never grows a
backoff and never stops.  The snapshot is not re-fetched and the book is not
discarded. -/
theorem C2_onclose (st : HookState) :
    (onclose st).1.orderbook = st.orderbook ∧
      (onclose st).1.historicalData = st.historicalData ∧
      (onclose st).1.error = st.error ∧
      (onclose st).1.connected = false ∧
      (onclose st).2.1 = 3000 ∧
      (onclose st).2.2 = ScheduledCall.connectWebSocket :=
  ⟨rfl, rfl, rfl, rfl, rfl, rfl⟩

/-- Claim C9 counterexample: the book handed out after the first message,
dereferenced again after the second message, has changed — the handler
mutates the arrays that earlier handed-out snapshots still reference. -/
theorem C9_cex :
    (let h0 : ArrayStore := fun j => if j = 0 then [⟨100, 2, 0⟩] else []
     let s1 := storeOnmessage h0 ⟨0, 1, 5⟩ ⟨6, 6, [(101, 3)], []⟩ 1
     let s2 := storeOnmessage s1.1 s1.2 ⟨7, 7, [(100, 0)], []⟩ 2
     s2.1 s1.2.bidsId ≠ s1.1 s1.2.bidsId) := by
  decide

/-- Reading an array slot just written. -/
theorem storeWrite_self (h : ArrayStore) (i : ℕ) (l : List PriceLevel) :
    storeWrite h i l i = l := by
  unfold storeWrite
  rw [if_pos rfl]

/-- Reading an array slot other than the written one. -/
theorem storeWrite_other (h : ArrayStore) (i : ℕ) (l : List PriceLevel) (j : ℕ)
    (hj : j ≠ i) : storeWrite h i l j = h j := by
  unfold storeWrite
  rw [if_neg hj]

/-- One heap-model step agrees with the pure handler and keeps the array
ids of the handed-out record unchanged. -/
theorem storeOnmessage_coherent (h : ArrayStore) (r : RefBook) (book : OrderbookData)
    (m : DiffMessage) (timestamp : ℕ) (hne : r.bidsId ≠ r.asksId)
    (hb : h r.bidsId = book.bids) (ha : h r.asksId = book.asks)
    (hv : r.lastUpdateId = book.lastUpdateId) :
    (storeOnmessage h r m timestamp).2.bidsId = r.bidsId ∧
      (storeOnmessage h r m timestamp).2.asksId = r.asksId ∧
      (storeOnmessage h r m timestamp).1 r.bidsId = (onmessage book m timestamp).bids ∧
      (storeOnmessage h r m timestamp).1 r.asksId = (onmessage book m timestamp).asks ∧
      (storeOnmessage h r m timestamp).2.lastUpdateId =
        (onmessage book m timestamp).lastUpdateId := by
  unfold storeOnmessage onmessage
  by_cases hc : m.U ≤ r.lastUpdateId
  · have hc' : m.U ≤ book.lastUpdateId := by rw [← hv]; exact hc
    rw [if_pos hc, if_pos hc']
    exact ⟨rfl, rfl, hb, ha, hv⟩
  · have hc' : ¬ m.U ≤ book.lastUpdateId := by rw [← hv]; exact hc
    rw [if_neg hc, if_neg hc']
    refine ⟨rfl, rfl, ?_, ?_, rfl⟩
    · show storeWrite (storeWrite h r.bidsId _) r.asksId _ r.bidsId =
        (applyDiff book m timestamp).bids
      rw [storeWrite_other _ _ _ _ hne, storeWrite_self, hb]
      rfl
    · show storeWrite (storeWrite h r.bidsId _) r.asksId _ r.asksId =
        (applyDiff book m timestamp).asks
      rw [storeWrite_self, storeWrite_other _ _ _ _ (fun hx => hne hx.symm), ha]
      rfl

/-- The heap-model run agrees with the pure book run at the original array
ids, which every handed-out record keeps sharing. -/
theorem storeRun_coherent (msgs : List (DiffMessage × ℕ)) (h : ArrayStore)
    (r : RefBook) (book : OrderbookData) (hne : r.bidsId ≠ r.asksId)
    (hb : h r.bidsId = book.bids) (ha : h r.asksId = book.asks)
    (hv : r.lastUpdateId = book.lastUpdateId) :
    (storeRun h r msgs).2.bidsId = r.bidsId ∧
      (storeRun h r msgs).2.asksId = r.asksId ∧
      (storeRun h r msgs).1 r.bidsId = (bookRun book msgs).bids ∧
      (storeRun h r msgs).1 r.asksId = (bookRun book msgs).asks ∧
      (storeRun h r msgs).2.lastUpdateId = (bookRun book msgs).lastUpdateId := by
  induction msgs generalizing h r book with
  | nil => exact ⟨rfl, rfl, hb, ha, hv⟩
  | cons md msgs ih =>
      obtain ⟨e1, e2, e3, e4, e5⟩ :=
        storeOnmessage_coherent h r book md.1 md.2 hne hb ha hv
      have hrun : storeRun h r (md :: msgs) =
          storeRun (storeOnmessage h r md.1 md.2).1
            (storeOnmessage h r md.1 md.2).2 msgs := by
        unfold storeRun
        rw [List.foldl_cons]
      have hbrun : bookRun book (md :: msgs) =
          bookRun (onmessage book md.1 md.2) msgs := by
        unfold bookRun
        rw [List.foldl_cons]
      obtain ⟨i1, i2, i3, i4, i5⟩ := ih (storeOnmessage h r md.1 md.2).1
        (storeOnmessage h r md.1 md.2).2 (onmessage book md.1 md.2)
        (by rw [e1, e2]; exact hne) (by rw [e1]; exact e3)
        (by rw [e2]; exact e4) e5
      rw [hrun, hbrun]
      exact ⟨by rw [i1, e1], by rw [i2, e2], by rw [← e1]; exact i3,
        by rw [← e2]; exact i4, i5⟩

/-- Claim C9 (amended): a book state handed to the consumer is not an
immutable by-value snapshot: it keeps referencing the live bid and ask
arrays, so every later accepted diff modifies it; dereferencing the record
handed out after any earlier prefix of the message sequence yields the
current book, not the book at hand-out time. -/
theorem C9_alias (h : ArrayStore) (r : RefBook) (book : OrderbookData)
    (msgs : List (DiffMessage × ℕ)) (n : ℕ) (hne : r.bidsId ≠ r.asksId)
    (hb : h r.bidsId = book.bids) (ha : h r.asksId = book.asks)
    (hv : r.lastUpdateId = book.lastUpdateId) :
    (storeRun h r msgs).1 ((storeRun h r (msgs.take n)).2.bidsId) =
        (bookRun book msgs).bids ∧
      (storeRun h r msgs).1 ((storeRun h r (msgs.take n)).2.asksId) =
        (bookRun book msgs).asks := by
  obtain ⟨p1, p2, _, _, _⟩ :=
    storeRun_coherent (msgs.take n) h r book hne hb ha hv
  obtain ⟨_, _, q3, q4, _⟩ := storeRun_coherent msgs h r book hne hb ha hv
  rw [p1, p2]
  exact ⟨q3, q4⟩

/-- Witness for C9 (amended): concrete two-message run, with the record
handed out after the first message. -/
theorem C9_alias_witness :
    ((0 : ℕ) ≠ 1) ∧
      ((storeRun (fun j => if j = 0 then [⟨100, 2, 0⟩] else []) ⟨0, 1, 5⟩
          [(⟨6, 6, [(101, 3)], []⟩, 1), (⟨7, 7, [(100, 0)], []⟩, 2)]).1
        ((storeRun (fun j => if j = 0 then [⟨100, 2, 0⟩] else []) ⟨0, 1, 5⟩
          ([(⟨6, 6, [(101, 3)], []⟩, 1), (⟨7, 7, [(100, 0)], []⟩, 2)].take 1)).2.bidsId) =
        (bookRun { bids := [⟨100, 2, 0⟩], asks := [], lastUpdateId := 5 }
          [(⟨6, 6, [(101, 3)], []⟩, 1), (⟨7, 7, [(100, 0)], []⟩, 2)]).bids) :=
  ⟨by decide,
    (C9_alias (fun j => if j = 0 then [⟨100, 2, 0⟩] else []) ⟨0, 1, 5⟩
      { bids := [⟨100, 2, 0⟩], asks := [], lastUpdateId := 5 }
      [(⟨6, 6, [(101, 3)], []⟩, 1), (⟨7, 7, [(100, 0)], []⟩, 2)] 1
      (by decide) rfl rfl rfl).1⟩

/-- A level-by-level search that fails finds no satisfying level. -/
theorem findIndex_eq_none (p : PriceLevel → Bool) (ls : List PriceLevel)
    (h : findIndex p ls = none) : ∀ l ∈ ls, p l = false := by
  induction ls with
  | nil => intro l hl; cases hl
  | cons x xs ih =>
      intro l hl
      unfold findIndex at h
      by_cases hx : p x = true
      · rw [if_pos hx] at h; cases h
      · rw [if_neg hx] at h
        cases hl with
        | head => exact Bool.eq_false_iff.mpr hx
        | tail _ hmem =>
            cases hfi : findIndex p xs with
            | none => exact ih hfi l hmem
            | some j => rw [hfi] at h; cases h

/-- A successful search returns an index of a satisfying level. -/
theorem findIndex_some (p : PriceLevel → Bool) (ls : List PriceLevel) (i : ℕ)
    (h : findIndex p ls = some i) : ∃ x, ls[i]? = some x ∧ p x = true := by
  induction ls generalizing i with
  | nil => cases h
  | cons x xs ih =>
      unfold findIndex at h
      by_cases hx : p x = true
      · rw [if_pos hx] at h
        injection h with h0
        subst h0
        exact ⟨x, by simp, hx⟩
      · rw [if_neg hx] at h
        cases hfi : findIndex p xs with
        | none => rw [hfi] at h; cases h
        | some j =>
            rw [hfi] at h
            simp only [Option.map_some'] at h
            injection h with h0
            subst h0
            obtain ⟨y, hy, hpy⟩ := ih j hfi
            exact ⟨y, by simpa using hy, hpy⟩

/-- Replacing the found index keeps the replacement in the list. -/
theorem mem_set_findIndex (ls : List PriceLevel) (i : ℕ) (v : PriceLevel)
    (p : PriceLevel → Bool) (h : findIndex p ls = some i) : v ∈ ls.set i v := by
  induction ls generalizing i with
  | nil => cases h
  | cons x xs ih =>
      unfold findIndex at h
      by_cases hx : p x = true
      · rw [if_pos hx] at h
        injection h with h0
        subst h0
        exact List.mem_cons_self _ _
      · rw [if_neg hx] at h
        cases hfi : findIndex p xs with
        | none => rw [hfi] at h; cases h
        | some j =>
            rw [hfi] at h
            simp only [Option.map_some'] at h
            injection h with h0
            subst h0
            exact List.mem_cons_of_mem x (ih j hfi)

/-- A member different from the element at the overwritten index stays in the
list after `set`. -/
theorem mem_set_of_ne (ls : List PriceLevel) (v l : PriceLevel) :
    ∀ i : ℕ, l ∈ ls → (∀ x, ls[i]? = some x → l ≠ x) → l ∈ ls.set i v := by
  induction ls with
  | nil => intro i hl _; cases hl
  | cons x xs ih =>
      intro i hl hne
      cases i with
      | zero =>
          rcases List.mem_cons.mp hl with h1 | h2
          · exact absurd h1 (hne x (by simp))
          · exact List.mem_cons_of_mem v h2
      | succ j =>
          rcases List.mem_cons.mp hl with h1 | h2
          · rw [h1]
            exact List.mem_cons_self _ _
          · exact List.mem_cons_of_mem x
              (ih j h2 (fun y hy => hne y (by simpa using hy)))

/-- Replacing the level found at `price` by a level with the same price keeps
the price sequence unchanged. -/
theorem prices_set_findIndex (ls : List PriceLevel) (i : ℕ) (price qty : ℚ)
    (ts : ℕ) (h : findIndex (fun l => decide (l.price = price)) ls = some i) :
    prices (ls.set i ⟨price, qty, ts⟩) = prices ls := by
  induction ls generalizing i with
  | nil => cases h
  | cons x xs ih =>
      unfold findIndex at h
      by_cases hx : decide (x.price = price) = true
      · rw [if_pos hx] at h
        injection h with h0
        subst h0
        have hxp : x.price = price := of_decide_eq_true hx
        show prices (⟨price, qty, ts⟩ :: xs) = prices (x :: xs)
        unfold prices
        rw [List.map_cons, List.map_cons]
        rw [show (⟨price, qty, ts⟩ : PriceLevel).price = x.price from hxp.symm]
      · rw [if_neg hx] at h
        cases hfi : findIndex (fun l => decide (l.price = price)) xs with
        | none => rw [hfi] at h; cases h
        | some j =>
            rw [hfi] at h
            simp only [Option.map_some'] at h
            injection h with h0
            subst h0
            show prices (x :: xs.set j ⟨price, qty, ts⟩) = prices (x :: xs)
            unfold prices
            rw [List.map_cons, List.map_cons]
            rw [show (xs.set j ⟨price, qty, ts⟩).map (fun l => l.price) =
              xs.map (fun l => l.price) from ih j hfi]

/-- With no duplicate prices, splicing out the found index is exactly the
filter that removes the level at `price`. -/
theorem eraseIdx_eq_filter (ls : List PriceLevel) (i : ℕ) (price : ℚ)
    (hnd : (prices ls).Pairwise fun p q => p ≠ q)
    (h : findIndex (fun l => decide (l.price = price)) ls = some i) :
    ls.eraseIdx i = ls.filter fun l => decide (l.price ≠ price) := by
  induction ls generalizing i with
  | nil => cases h
  | cons x xs ih =>
      unfold prices at hnd
      rw [List.map_cons] at hnd
      unfold findIndex at h
      by_cases hx : decide (x.price = price) = true
      · rw [if_pos hx] at h
        injection h with h0
        subst h0
        have hxp : x.price = price := of_decide_eq_true hx
        show xs = (x :: xs).filter fun l => decide (l.price ≠ price)
        rw [List.filter_cons]
        rw [if_neg (by simp [hxp])]
        symm
        apply List.filter_eq_self.mpr
        intro a ha
        have hax : x.price ≠ a.price :=
          List.rel_of_pairwise_cons hnd (List.mem_map_of_mem _ ha)
        simp only [decide_eq_true_eq]
        rw [← hxp]
        exact fun hc => hax hc.symm
      · rw [if_neg hx] at h
        cases hfi : findIndex (fun l => decide (l.price = price)) xs with
        | none => rw [hfi] at h; cases h
        | some j =>
            rw [hfi] at h
            simp only [Option.map_some'] at h
            injection h with h0
            subst h0
            show x :: xs.eraseIdx j = (x :: xs).filter fun l => decide (l.price ≠ price)
            have hxp : ¬ x.price = price := of_decide_eq_false (Bool.eq_false_iff.mpr hx)
            rw [List.filter_cons]
            rw [if_pos (by simpa using hxp)]
            rw [ih j hnd.of_cons hfi]

/-- With no duplicate prices, a quantity-0 delta is exactly the removal of
the level at `price` (and a no-op when no such level exists); it never
inserts a level. -/
theorem upsertBy_zero (le : ℚ → ℚ → Prop) [DecidableRel le] (ls : List PriceLevel)
    (price : ℚ) (ts : ℕ) (hnd : (prices ls).Pairwise fun p q => p ≠ q) :
    upsertBy le ls price 0 ts = ls.filter fun l => decide (l.price ≠ price) := by
  rcases hfi : findIndex (fun l => decide (l.price = price)) ls with _ | i
  · simp only [upsertBy, hfi, if_pos rfl]
    symm
    apply List.filter_eq_self.mpr
    intro a ha
    simp only [decide_eq_true_eq]
    exact of_decide_eq_false (findIndex_eq_none _ ls hfi a ha)
  · simp only [upsertBy, hfi, if_pos rfl]
    exact eraseIdx_eq_filter ls i price hnd hfi

/-- A nonzero delta leaves the new level in the side. -/
theorem upsertBy_mem (le : ℚ → ℚ → Prop) [DecidableRel le] (ls : List PriceLevel)
    (price quantity : ℚ) (ts : ℕ) (hq : quantity ≠ 0) :
    (⟨price, quantity, ts⟩ : PriceLevel) ∈ upsertBy le ls price quantity ts := by
  rcases hfi : findIndex (fun l => decide (l.price = price)) ls with _ | i
  · simp only [upsertBy, hfi, if_neg hq]
    exact (List.perm_insertionSort _ _).mem_iff.mpr (by simp)
  · simp only [upsertBy, hfi, if_neg hq]
    exact mem_set_findIndex ls i _ _ hfi

/-- A nonzero delta keeps every level at a different price. -/
theorem upsertBy_mem_of_ne (le : ℚ → ℚ → Prop) [DecidableRel le]
    (ls : List PriceLevel) (price quantity : ℚ) (ts : ℕ) (l : PriceLevel)
    (hq : quantity ≠ 0) (hl : l ∈ ls) (hne : l.price ≠ price) :
    l ∈ upsertBy le ls price quantity ts := by
  rcases hfi : findIndex (fun x => decide (x.price = price)) ls with _ | i
  · simp only [upsertBy, hfi, if_neg hq]
    exact (List.perm_insertionSort _ _).mem_iff.mpr (List.mem_append_left _ hl)
  · simp only [upsertBy, hfi, if_neg hq]
    apply mem_set_of_ne ls ⟨price, quantity, ts⟩ l i hl
    intro x hx
    obtain ⟨y, hy, hpy⟩ := findIndex_some _ ls i hfi
    rw [hy] at hx
    injection hx with hxy
    subst hxy
    intro hlx
    apply hne
    rw [hlx]
    exact of_decide_eq_true hpy

/-- The central preservation lemma: one delta keeps the side strictly sorted
(with respect to a total, transitive price order) and duplicate-free. -/
theorem upsertBy_pairwise (le : ℚ → ℚ → Prop) [DecidableRel le]
    (htot : ∀ p q, le p q ∨ le q p)
    (htrans : ∀ p q r, le p q → le q r → le p r)
    (ls : List PriceLevel) (price quantity : ℚ) (ts : ℕ)
    (hinv : (prices ls).Pairwise fun p q => le p q ∧ p ≠ q) :
    (prices (upsertBy le ls price quantity ts)).Pairwise
      fun p q => le p q ∧ p ≠ q := by
  rcases hfi : findIndex (fun l => decide (l.price = price)) ls with _ | i
  · by_cases hq : quantity = 0
    · simp only [upsertBy, hfi, if_pos hq]
      exact hinv
    · simp only [upsertBy, hfi, if_neg hq]
      haveI : IsTotal PriceLevel fun x y => le x.price y.price :=
        ⟨fun a b => htot a.price b.price⟩
      haveI : IsTrans PriceLevel fun x y => le x.price y.price :=
        ⟨fun a b c => htrans a.price b.price c.price⟩
      have hsorted := List.sorted_insertionSort
        (fun x y : PriceLevel => le x.price y.price) (ls ++ [⟨price, quantity, ts⟩])
      have hle : (prices (List.insertionSort
          (fun x y : PriceLevel => le x.price y.price)
          (ls ++ [⟨price, quantity, ts⟩]))).Pairwise fun p q => le p q := by
        unfold prices
        exact List.pairwise_map.mpr hsorted
      have hperm := List.perm_insertionSort
        (fun x y : PriceLevel => le x.price y.price) (ls ++ [⟨price, quantity, ts⟩])
      have hnotmem : price ∉ prices ls := by
        intro hmem
        obtain ⟨l, hl, hlp⟩ := List.mem_map.mp hmem
        have hfalse := findIndex_eq_none _ ls hfi l hl
        rw [hlp] at hfalse
        simp at hfalse
      have hnd0 : (prices ls).Pairwise (fun p q : ℚ => p ≠ q) :=
        hinv.imp (fun h => h.2)
      have hndapp : (prices (ls ++ [⟨price, quantity, ts⟩])).Pairwise
          (fun p q : ℚ => p ≠ q) := by
        unfold prices
        rw [List.map_append]
        apply List.pairwise_append.mpr
        refine ⟨hnd0, List.pairwise_singleton _ _, ?_⟩
        intro a ha b hb
        simp only [List.map_cons, List.map_nil, List.mem_singleton] at hb
        subst hb
        exact fun hc => hnotmem (hc ▸ ha)
      have hpperm := hperm.map (fun l : PriceLevel => l.price)
      have hndres : (prices (List.insertionSort
          (fun x y : PriceLevel => le x.price y.price)
          (ls ++ [⟨price, quantity, ts⟩]))).Pairwise (fun p q : ℚ => p ≠ q) :=
        (@List.Perm.pairwise_iff ℚ (fun p q : ℚ => p ≠ q)
          (fun h => h.symm) _ _ hpperm).mpr hndapp
      exact hle.and hndres
  · by_cases hq : quantity = 0
    · simp only [upsertBy, hfi, if_pos hq]
      have hsub := (List.eraseIdx_sublist ls i).map (fun l : PriceLevel => l.price)
      exact hinv.sublist hsub
    · simp only [upsertBy, hfi, if_neg hq]
      rw [show prices (ls.set i ⟨price, quantity, ts⟩) = prices ls from
        prices_set_findIndex ls i price quantity ts hfi]
      exact hinv

/-- Folding a delta list preserves the strict order of a side. -/
theorem foldl_upsert_pairwise (le : ℚ → ℚ → Prop) [DecidableRel le]
    (htot : ∀ p q, le p q ∨ le q p)
    (htrans : ∀ p q r, le p q → le q r → le p r)
    (deltas : List (ℚ × ℚ)) (ts : ℕ) (ls : List PriceLevel)
    (hinv : (prices ls).Pairwise fun p q => le p q ∧ p ≠ q) :
    (prices (deltas.foldl (fun acc d => upsertBy le acc d.1 d.2 ts) ls)).Pairwise
      fun p q => le p q ∧ p ≠ q := by
  induction deltas generalizing ls with
  | nil => exact hinv
  | cons d ds ih =>
      exact ih (upsertBy le ls d.1 d.2 ts)
        (upsertBy_pairwise le htot htrans ls d.1 d.2 ts hinv)

/-- Applying one accepted diff preserves the book invariant. -/
theorem applyDiff_inv (book : OrderbookData) (m : DiffMessage) (ts : ℕ)
    (h : BookInv book) : BookInv (applyDiff book m ts) := by
  obtain ⟨hb, ha⟩ := h
  constructor
  · have h0 : (prices book.bids).Pairwise fun p q : ℚ => q ≤ p ∧ p ≠ q :=
      hb.imp (fun hpq => ⟨le_of_lt hpq, ne_of_gt hpq⟩)
    have hres := foldl_upsert_pairwise (fun p q : ℚ => q ≤ p)
      (fun p q => le_total q p) (fun p q r h1 h2 => le_trans h2 h1)
      m.b ts book.bids h0
    exact hres.imp (fun hpq => lt_of_le_of_ne hpq.1 (Ne.symm hpq.2))
  · have h0 : (prices book.asks).Pairwise fun p q : ℚ => p ≤ q ∧ p ≠ q :=
      ha.imp (fun hpq => ⟨le_of_lt hpq, ne_of_lt hpq⟩)
    have hres := foldl_upsert_pairwise (fun p q : ℚ => p ≤ q)
      (fun p q => le_total p q) (fun p q r h1 h2 => le_trans h1 h2)
      m.a ts book.asks h0
    exact hres.imp (fun hpq => lt_of_le_of_ne hpq.1 hpq.2)

/-- The full handler preserves the book invariant. -/
theorem onmessage_inv (book : OrderbookData) (m : DiffMessage) (ts : ℕ)
    (h : BookInv book) : BookInv (onmessage book m ts) := by
  unfold onmessage
  by_cases hc : m.U ≤ book.lastUpdateId
  · rw [if_pos hc]; exact h
  · rw [if_neg hc]; exact applyDiff_inv book m ts h

/-- The handler never decreases the version of a well-formed message run. -/
theorem onmessage_version (book : OrderbookData) (m : DiffMessage) (ts : ℕ)
    (hwf : m.U ≤ m.u) :
    book.lastUpdateId ≤ (onmessage book m ts).lastUpdateId := by
  unfold onmessage
  by_cases hc : m.U ≤ book.lastUpdateId
  · rw [if_pos hc]
  · rw [if_neg hc]
    show book.lastUpdateId ≤ m.u
    omega

/-- The invariant is preserved by any message run. -/
theorem bookRun_inv (msgs : List (DiffMessage × ℕ)) (book : OrderbookData)
    (h : BookInv book) : BookInv (bookRun book msgs) := by
  induction msgs generalizing book with
  | nil => exact h
  | cons md ms ih =>
      exact ih (onmessage book md.1 md.2) (onmessage_inv book md.1 md.2 h)

/-- Claim C3: starting from a snapshot satisfying the ordering invariant and
processing any sequence of well-formed messages, after every prefix the book
still has strictly descending bids, strictly ascending asks (hence no
duplicate prices per side), and the version never decreases from one
processed message to the next. -/
theorem C3_invariant (book : OrderbookData) (msgs : List (DiffMessage × ℕ))
    (hinv : BookInv book) (hwf : ∀ md ∈ msgs, md.1.U ≤ md.1.u) :
    ∀ n : ℕ, BookInv (bookRun book (msgs.take n)) ∧
      (bookRun book (msgs.take n)).lastUpdateId ≤
        (bookRun book (msgs.take (n + 1))).lastUpdateId := by
  intro n
  refine ⟨bookRun_inv (msgs.take n) book hinv, ?_⟩
  by_cases hn : n < msgs.length
  · have hget : msgs[n]? = some msgs[n] := List.getElem?_eq_getElem hn
    have htake : msgs.take (n + 1) = msgs.take n ++ [msgs[n]] := by
      rw [List.take_succ, hget]
      rfl
    rw [htake]
    unfold bookRun
    rw [List.foldl_append]
    show (bookRun book (msgs.take n)).lastUpdateId ≤
      (onmessage (bookRun book (msgs.take n)) msgs[n].1 msgs[n].2).lastUpdateId
    exact onmessage_version _ _ _ (hwf msgs[n] (List.getElem_mem hn))
  · have h1 : msgs.take n = msgs := List.take_of_length_le (by omega)
    have h2 : msgs.take (n + 1) = msgs := List.take_of_length_le (by omega)
    rw [h1, h2]

/-- Witness for C3: a sorted two-level snapshot and one well-formed message. -/
theorem C3_invariant_witness :
    BookInv ⟨[⟨101, 1, 0⟩, ⟨100, 2, 0⟩], [⟨102, 1, 0⟩], 5⟩ ∧
      (∀ md ∈ [((⟨6, 6, [(100, 0)], [(103, 4)]⟩ : DiffMessage), (1 : ℕ))],
        md.1.U ≤ md.1.u) ∧
      (BookInv (bookRun ⟨[⟨101, 1, 0⟩, ⟨100, 2, 0⟩], [⟨102, 1, 0⟩], 5⟩
          ([((⟨6, 6, [(100, 0)], [(103, 4)]⟩ : DiffMessage), (1 : ℕ))].take 1)) ∧
        (bookRun ⟨[⟨101, 1, 0⟩, ⟨100, 2, 0⟩], [⟨102, 1, 0⟩], 5⟩
            ([((⟨6, 6, [(100, 0)], [(103, 4)]⟩ : DiffMessage), (1 : ℕ))].take 1)).lastUpdateId ≤
          (bookRun ⟨[⟨101, 1, 0⟩, ⟨100, 2, 0⟩], [⟨102, 1, 0⟩], 5⟩
              ([((⟨6, 6, [(100, 0)], [(103, 4)]⟩ : DiffMessage), (1 : ℕ))].take (1 + 1))).lastUpdateId) :=
  ⟨by decide, by decide,
    C3_invariant ⟨[⟨101, 1, 0⟩, ⟨100, 2, 0⟩], [⟨102, 1, 0⟩], 5⟩
      [((⟨6, 6, [(100, 0)], [(103, 4)]⟩ : DiffMessage), (1 : ℕ))]
      (by decide) (by decide) 1⟩

/-- Claim C5: on a strictly sorted side, a quantity-0 delta removes the level
at that price when it exists and is a no-op otherwise (never inserting a
zero-quantity level), while a nonzero delta inserts or replaces the level at
that price, keeps every level at other prices, and preserves the strict sort
order of the side. -/
theorem C5_upsert (bids asks : List PriceLevel) (price quantity : ℚ) (ts : ℕ)
    (hb : (prices bids).Pairwise fun p q => q < p)
    (ha : (prices asks).Pairwise fun p q => p < q) :
    (quantity = 0 →
      bidsUpsert bids price quantity ts =
          bids.filter (fun l => decide (l.price ≠ price)) ∧
        asksUpsert asks price quantity ts =
          asks.filter (fun l => decide (l.price ≠ price))) ∧
    (quantity ≠ 0 →
      ((⟨price, quantity, ts⟩ : PriceLevel) ∈ bidsUpsert bids price quantity ts ∧
        (∀ l ∈ bids, l.price ≠ price → l ∈ bidsUpsert bids price quantity ts) ∧
        (prices (bidsUpsert bids price quantity ts)).Pairwise fun p q => q < p) ∧
      ((⟨price, quantity, ts⟩ : PriceLevel) ∈ asksUpsert asks price quantity ts ∧
        (∀ l ∈ asks, l.price ≠ price → l ∈ asksUpsert asks price quantity ts) ∧
        (prices (asksUpsert asks price quantity ts)).Pairwise fun p q => p < q)) := by
  constructor
  · intro hq
    subst hq
    exact ⟨upsertBy_zero (fun p q : ℚ => q ≤ p) bids price ts
        (hb.imp fun h => ne_of_gt h),
      upsertBy_zero (fun p q : ℚ => p ≤ q) asks price ts
        (ha.imp fun h => ne_of_lt h)⟩
  · intro hq
    refine ⟨⟨upsertBy_mem (fun p q : ℚ => q ≤ p) bids price quantity ts hq,
        fun l hl hne =>
          upsertBy_mem_of_ne (fun p q : ℚ => q ≤ p) bids price quantity ts l hq hl hne,
        ?_⟩,
      ⟨upsertBy_mem (fun p q : ℚ => p ≤ q) asks price quantity ts hq,
        fun l hl hne =>
          upsertBy_mem_of_ne (fun p q : ℚ => p ≤ q) asks price quantity ts l hq hl hne,
        ?_⟩⟩
    · have h0 : (prices bids).Pairwise fun p q : ℚ => q ≤ p ∧ p ≠ q :=
        hb.imp (fun h => ⟨le_of_lt h, ne_of_gt h⟩)
      have hres := upsertBy_pairwise (fun p q : ℚ => q ≤ p)
        (fun p q => le_total q p) (fun p q r h1 h2 => le_trans h2 h1)
        bids price quantity ts h0
      exact hres.imp (fun h => lt_of_le_of_ne h.1 (Ne.symm h.2))
    · have h0 : (prices asks).Pairwise fun p q : ℚ => p ≤ q ∧ p ≠ q :=
        ha.imp (fun h => ⟨le_of_lt h, ne_of_lt h⟩)
      have hres := upsertBy_pairwise (fun p q : ℚ => p ≤ q)
        (fun p q => le_total p q) (fun p q r h1 h2 => le_trans h1 h2)
        asks price quantity ts h0
      exact hres.imp (fun h => lt_of_le_of_ne h.1 h.2)

/-- Witness for C5: upserting quantity 4 at a fresh price into a sorted bid
side keeps the new level in the side. -/
theorem C5_upsert_witness :
    ((prices [⟨101, 1, 0⟩, ⟨100, 2, 0⟩]).Pairwise fun p q => q < p) ∧
      ((4 : ℚ) ≠ 0) ∧
      (⟨99, 4, 7⟩ : PriceLevel) ∈ bidsUpsert [⟨101, 1, 0⟩, ⟨100, 2, 0⟩] 99 4 7 :=
  ⟨by decide, by decide,
    (((C5_upsert [⟨101, 1, 0⟩, ⟨100, 2, 0⟩] [⟨102, 3, 0⟩] 99 4 7
      (by decide) (by decide)).2 (by decide)).1).1⟩

/-- Taking the last `n` of a list never yields more than `n` elements. -/
theorem sliceLast_length_le {α : Type} (n : ℕ) (l : List α) :
    (sliceLast n l).length ≤ n := by
  unfold sliceLast
  rw [List.length_drop]
  omega

/-- `slice(-n)` of a list no longer than `n` is the whole list. -/
theorem sliceLast_of_le {α : Type} (n : ℕ) (l : List α) (h : l.length ≤ n) :
    sliceLast n l = l := by
  unfold sliceLast
  rw [show l.length - n = 0 by omega, List.drop_zero]

/-- The last `n` of an appended list depend only on the second part once it
is long enough. -/
theorem sliceLast_append_of_le {α : Type} (a b : List α) (n : ℕ)
    (h : n ≤ b.length) : sliceLast n (a ++ b) = sliceLast n b := by
  unfold sliceLast
  rw [List.length_append]
  rw [show a.length + b.length - n = a.length + (b.length - n) by omega]
  rw [← List.drop_drop, List.drop_left]

/-- Cutting a list to its last `n` before appending does not change the last
`n` of the whole. -/
theorem sliceLast_idem_append {α : Type} (n : ℕ) (l m : List α) :
    sliceLast n (sliceLast n l ++ m) = sliceLast n (l ++ m) := by
  by_cases h : l.length ≤ n
  · rw [sliceLast_of_le n l h]
  · have hlen : (sliceLast n l).length = n := by
      unfold sliceLast
      rw [List.length_drop]
      omega
    have hsplit : l = l.take (l.length - n) ++ sliceLast n l := by
      unfold sliceLast
      rw [List.take_append_drop]
    conv_rhs => rw [hsplit, List.append_assoc,
      sliceLast_append_of_le (l.take (l.length - n)) (sliceLast n l ++ m) n
        (by rw [List.length_append, hlen]; omega)]

/-- Folding the `setHistoricalData` updater keeps exactly the last 60 of
everything ever appended. -/
theorem foldl_historyAppend (ss : List HistorySnapshot)
    (init : List HistorySnapshot) (hinit : init.length ≤ 60) :
    ss.foldl historyAppend init = sliceLast 60 (init ++ ss) := by
  induction ss generalizing init with
  | nil => rw [List.foldl_nil, List.append_nil, sliceLast_of_le _ _ hinit]
  | cons s ss ih =>
      rw [List.foldl_cons]
      rw [ih (historyAppend init s) (sliceLast_length_le _ _)]
      show sliceLast 60 (sliceLast 60 (init ++ [s]) ++ ss) = _
      rw [sliceLast_idem_append, List.append_assoc]
      rfl

/-- Claim C7: after more than 60 appends the history holds exactly the 60
most recently appended snapshots, oldest first; at capacity an append evicts
only the oldest entry. -/
theorem C7_history_bound (init : List HistorySnapshot)
    (ss : List HistorySnapshot) (hinit : init.length ≤ 60)
    (hlen : 60 < ss.length) :
    ss.foldl historyAppend init = ss.drop (ss.length - 60) ∧
      (ss.foldl historyAppend init).length = 60 ∧
      ∀ buf s, buf.length = 60 → historyAppend buf s = buf.tail ++ [s] := by
  have h1 : ss.foldl historyAppend init = sliceLast 60 (init ++ ss) :=
    foldl_historyAppend ss init hinit
  have h2 : sliceLast 60 (init ++ ss) = sliceLast 60 ss :=
    sliceLast_append_of_le init ss 60 (by omega)
  refine ⟨by rw [h1, h2]; rfl, ?_, ?_⟩
  · rw [h1, h2]
    unfold sliceLast
    rw [List.length_drop]
    omega
  · intro buf s hbuf
    unfold historyAppend sliceLast
    rw [List.length_append, hbuf]
    rw [show 60 + [s].length - 60 = 1 by rfl]
    cases buf with
    | nil => simp at hbuf
    | cons x xs => rfl

/-- Witness for C7: 61 appends into an empty history keep the last 60. -/
theorem C7_history_bound_witness :
    (([] : List HistorySnapshot).length ≤ 60) ∧
      60 < ((List.range 61).map fun i => (⟨i, [], []⟩ : HistorySnapshot)).length ∧
      ((List.range 61).map fun i => (⟨i, [], []⟩ : HistorySnapshot)).foldl
          historyAppend [] =
        ((List.range 61).map fun i => (⟨i, [], []⟩ : HistorySnapshot)).drop
          (((List.range 61).map fun i => (⟨i, [], []⟩ : HistorySnapshot)).length - 60) :=
  ⟨by simp, by simp,
    (C7_history_bound [] ((List.range 61).map fun i => (⟨i, [], []⟩ : HistorySnapshot))
      (by simp) (by simp)).1⟩

/-- Every element retained by an append was already present or is the new
snapshot. -/
theorem mem_historyAppend (prev : List HistorySnapshot) (s x : HistorySnapshot)
    (hx : x ∈ historyAppend prev s) : x ∈ prev ∨ x = s := by
  unfold historyAppend sliceLast at hx
  have hsub := List.drop_subset ((prev ++ [s]).length - 60) (prev ++ [s]) hx
  rcases List.mem_append.mp hsub with h1 | h2
  · exact Or.inl h1
  · exact Or.inr (List.mem_singleton.mp h2)

/-- The newest snapshot is always the last retained entry. -/
theorem historyAppend_getLast (prev : List HistorySnapshot) (s : HistorySnapshot) :
    (historyAppend prev s).getLast? = some s := by
  unfold historyAppend sliceLast
  have hk : (prev ++ [s]).length - 60 ≤ prev.length := by
    rw [List.length_append]
    simp only [List.length_singleton]
    omega
  rw [List.drop_append_of_le_length hk, List.getLast?_concat]

/-- Each side of a pushed snapshot holds at most 20 levels. -/
theorem mkHistorySnapshot_bound (book : OrderbookData) (ts : ℕ) :
    (mkHistorySnapshot book ts).bids.length ≤ 20 ∧
      (mkHistorySnapshot book ts).asks.length ≤ 20 := by
  constructor
  · show (book.bids.take 20).length ≤ 20
    rw [List.length_take]
    exact min_le_left _ _
  · show (book.asks.take 20).length ≤ 20
    rw [List.length_take]
    exact min_le_left _ _

/-- One handler step either keeps the history or appends the top-20 snapshot
of the updated book. -/
theorem onmessageStep_history (st : EngineState) (m : DiffMessage) (ts : ℕ) :
    (onmessageStep st m ts).history = st.history ∨
      (onmessageStep st m ts).history =
        historyAppend st.history
          (mkHistorySnapshot (applyDiff st.book m ts) ts) := by
  unfold onmessageStep
  by_cases hc : m.U ≤ st.book.lastUpdateId
  · rw [if_pos hc]; exact Or.inl rfl
  · rw [if_neg hc]; exact Or.inr rfl

/-- The top-20 cap on history entries survives any run. -/
theorem engineRun_history_bound (msgs : List (DiffMessage × ℕ))
    (st : EngineState)
    (h : ∀ s ∈ st.history, s.bids.length ≤ 20 ∧ s.asks.length ≤ 20) :
    ∀ s ∈ (engineRun st msgs).history,
      s.bids.length ≤ 20 ∧ s.asks.length ≤ 20 := by
  induction msgs generalizing st with
  | nil => exact h
  | cons md ms ih =>
      refine ih (onmessageStep st md.1 md.2) ?_
      intro s hs
      rcases onmessageStep_history st md.1 md.2 with heq | heq
      · rw [heq] at hs
        exact h s hs
      · rw [heq] at hs
        rcases mem_historyAppend _ _ _ hs with h1 | h2
        · exact h s h1
        · rw [h2]
          exact mkHistorySnapshot_bound _ _

/-- Claim C10: every snapshot appended to the history — the seed captured at
initialization and the snapshot captured after each accepted diff — holds at
most the top 20 levels per side, taken as a prefix of the side in sort
order, regardless of how many levels the live book holds. -/
theorem C10_topK (snapshot : OrderbookData) (t0 : ℕ)
    (msgs : List (DiffMessage × ℕ)) :
    (∀ s ∈ (engineRun (initEngine snapshot t0) msgs).history,
        s.bids.length ≤ 20 ∧ s.asks.length ≤ 20) ∧
      (∀ st m ts, st.book.lastUpdateId < m.U →
        ((onmessageStep st m ts).history).getLast? =
          some (mkHistorySnapshot ((onmessageStep st m ts).book) ts)) ∧
      (∀ book ts, (mkHistorySnapshot book ts).bids = book.bids.take 20 ∧
        (mkHistorySnapshot book ts).asks = book.asks.take 20) := by
  refine ⟨?_, ?_, fun book ts => ⟨rfl, rfl⟩⟩
  · apply engineRun_history_bound
    intro s hs
    have hs' : s = mkHistorySnapshot snapshot t0 := List.mem_singleton.mp hs
    rw [hs']
    exact mkHistorySnapshot_bound _ _
  · intro st m ts hacc
    have hc : ¬ m.U ≤ st.book.lastUpdateId := not_le.mpr hacc
    unfold onmessageStep
    rw [if_neg hc]
    exact historyAppend_getLast _ _

/-- Witness for C10: an accepted message against a version-5 book ends the
history with the top-20 snapshot of the updated book. -/
theorem C10_topK_witness :
    ((initEngine ⟨[], [], 5⟩ 0).book.lastUpdateId < 6) ∧
      ((onmessageStep (initEngine ⟨[], [], 5⟩ 0)
          ⟨6, 6, [(100, 1)], []⟩ 1).history).getLast? =
        some (mkHistorySnapshot
          ((onmessageStep (initEngine ⟨[], [], 5⟩ 0)
            ⟨6, 6, [(100, 1)], []⟩ 1).book) 1) :=
  ⟨by decide,
    (C10_topK ⟨[], [], 5⟩ 0 []).2.1 (initEngine ⟨[], [], 5⟩ 0)
      ⟨6, 6, [(100, 1)], []⟩ 1 (by decide)⟩
